import Mathlib

/-
Verification of the Logical Tile / Tile Group storage-and-iteration model and
the Volcano-style executor protocol of the peloton execution core
(sequential scan, materialization, and their composition), together with the
MaterializationNode plan-node data holder.

The MaterializationNode data model is embedded from the header in the
repository (planner/materialization_node.h).  The storage and executor
implementations themselves (LogicalTile, SeqScanExecutor, the materialization
executor) are present in the repository only through their declarations and
their test file (the sequential-scan test cases); those components are
modelled from the specification, as marked on each definition.
-/

set_option maxRecDepth 4000

namespace Peloton

/-- Modelled from the spec: one physical row slot of a Tile Group.  The
occupancy marker is the per-row active/deleted bookkeeping; `visible` captures
the transaction-visibility oracle's verdict for the scanning transaction
(the transaction subsystem is an external collaborator, so its answer is
recorded per row); `vals` is the full tuple, one value per column of the
group's full schema (values abstracted to natural numbers; the vertical
partitioning into physical tiles does not affect logical addressing). -/
structure Row where
  occupied : Bool
  visible : Bool
  vals : List Nat
deriving DecidableEq, Inhabited

/-- Modelled from the spec: a Tile Group is a bounded set of row slots over a
full schema of `width` columns (its vertical partitioning into Physical Tiles
is a storage-layout detail with no effect on logical column addressing). -/
structure TileGroup where
  width : Nat
  rows : List Row
deriving DecidableEq, Inhabited

/-- Modelled from the spec: a Data Table is an ordered collection of Tile
Groups sharing one schema. -/
structure DataTable where
  groups : List TileGroup
deriving DecidableEq, Inhabited

/-- Modelled from the spec: a Logical Tile is a view with a column mapping
(logical column index to source-group column index), a row mapping (logical
row index to physical row slot of the source group), and the referenced
source Tile Group. -/
structure LogicalTile where
  cols : List Nat
  rows : List Nat
  source : TileGroup
deriving DecidableEq, Inhabited

/-- Modelled from the spec: NumCols reports the logical column extent. -/
def LogicalTile.numCols (t : LogicalTile) : Nat := t.cols.length

/-- Modelled from the spec: NumTuples reports the logical row extent. -/
def LogicalTile.numTuples (t : LogicalTile) : Nat := t.rows.length

/-- Modelled from the spec: GetValue resolves the logical column through the
column mapping and the logical row through the row mapping, then reads the
value at that physical location. -/
def LogicalTile.getValue (t : LogicalTile) (row col : Nat) : Nat :=
  ((t.source.rows.getD (t.rows.getD row 0) default).vals).getD (t.cols.getD col 0) 0

/-- Modelled from the spec: iterating over a Logical Tile yields the logical
row indices currently live in the row mapping, in order. -/
def tileIterate (t : LogicalTile) : List Nat := List.range t.rows.length

/-- Modelled from the spec: the single-row view a predicate is evaluated
over, exposing get_column_value for each mapped column of a row slot. -/
def slotView (g : TileGroup) (cols : List Nat) (s : Nat) : List Nat :=
  cols.map (fun c => ((g.rows.getD s default).vals).getD c 0)

/-- Modelled from the spec: WrapTileGroup builds a column mapping covering
every physical column of the group in order, and a row mapping that is the
identity over all currently-occupied row slots. -/
def wrapTileGroup (g : TileGroup) : LogicalTile :=
  ⟨List.range g.width,
   (List.range g.rows.length).filter (fun s => (g.rows.getD s default).occupied),
   g⟩

/-- Modelled from the spec: a Sequential Scan plan node holds a possibly null
target table, an opaque boolean-valued predicate evaluator over a tuple, and
the ordered column ids to project. -/
structure SeqScanNode where
  table : Option DataTable
  predicate : Option (List Nat → Bool)
  column_ids : List Nat

/-- Modelled from the spec: predicate evaluation; with the predicate absent
every row passes. -/
def evalPred (pr : Option (List Nat → Bool)) (vals : List Nat) : Bool :=
  match pr with
  | none => true
  | some p => p vals

/-- Modelled from the spec: a row slot matches a leaf scan when it is
occupied, transaction-visible, and the predicate accepts its tuple. -/
def rowMatches (node : SeqScanNode) (g : TileGroup) (s : Nat) : Bool :=
  let r := g.rows.getD s default
  r.occupied && r.visible && evalPred node.predicate r.vals

/-- Modelled from the spec: the matching row slots of one Tile Group, scanned
in ascending slot order. -/
def matchingSlots (node : SeqScanNode) (g : TileGroup) : List Nat :=
  (List.range g.rows.length).filter (rowMatches node g)

/-- Modelled from the spec: the Logical Tile a leaf scan builds for one Tile
Group — matching rows only, projected to the configured column ids; an empty
Tile Group or a fully-filtered-out group yields no tile. -/
def leafTileFor (node : SeqScanNode) (g : TileGroup) : Option LogicalTile :=
  if (matchingSlots node g).isEmpty then none
  else some ⟨node.column_ids, matchingSlots node g, g⟩

/-- Modelled from the spec: the full output stream of a leaf sequential scan,
one tile per producing Tile Group, Tile Groups visited in ascending index
order. -/
def seqScanLeaf (node : SeqScanNode) : List LogicalTile :=
  match node.table with
  | none => []
  | some tb => tb.groups.filterMap (leafTileFor node)

/-- Modelled from the spec: filtering a Logical Tile by a predicate keeps the
column mapping and the source, and keeps exactly the row-mapping entries whose
row view satisfies the predicate. -/
def filterTile (p : List Nat → Bool) (t : LogicalTile) : LogicalTile :=
  { t with rows := t.rows.filter (fun s => p (slotView t.source t.cols s)) }

/-- Modelled from the spec: the output stream of a non-leaf sequential scan
over the child's tile stream — each child tile filtered by the predicate, with
fully-filtered-out tiles producing no output. -/
def nonLeafScan (p : List Nat → Bool) (ts : List LogicalTile) : List LogicalTile :=
  ts.filterMap (fun t =>
    if ((filterTile p t).rows).isEmpty then none else some (filterTile p t))

/-- Modelled from the spec: the non-leaf sequential scan at the plan-node
level; only the node's predicate is consulted (column ids are ignored in this
mode). -/
def seqScanNonLeaf (node : SeqScanNode) (ts : List LogicalTile) : List LogicalTile :=
  nonLeafScan (evalPred node.predicate) ts

/-- Modelled from the spec: one Execute call of a non-leaf scan, with the
child executor modelled by its list of tiles still to produce; the call pulls
one tile from the child per successful child Execute, skipping tiles that
filter to zero rows, and reports exhaustion (none) exactly when the child is
exhausted. -/
def nonLeafExecuteStep (p : List Nat → Bool) :
    List LogicalTile → Option LogicalTile × List LogicalTile
  | [] => (none, [])
  | t :: rest =>
    if ((filterTile p t).rows).isEmpty then nonLeafExecuteStep p rest
    else (some (filterTile p t), rest)

/-- Modelled from the spec: driving a non-leaf scan to exhaustion by repeated
Execute calls, collecting the buffered tiles (fuel bounds the number of child
pulls; any fuel at least the child stream length suffices). -/
def nonLeafDrive (p : List Nat → Bool) : Nat → List LogicalTile → List LogicalTile
  | 0, _ => []
  | fuel + 1, ts =>
    match nonLeafExecuteStep p ts with
    | (none, _) => []
    | (some f, rest) => f :: nonLeafDrive p fuel rest

/-- Modelled from the spec: executor runtime state between calls — the tiles
still to be produced and the transient buffer exposed through GetOutput. -/
structure ExecState where
  pending : List LogicalTile
  buffered : Option LogicalTile
deriving DecidableEq, Inhabited

/-- Modelled from the spec: one Execute call — buffers the next tile and
returns true, or returns false with no further side effects once no tiles
remain (terminal exhaustion). -/
def execute (s : ExecState) : Bool × ExecState :=
  match s.pending with
  | [] => (false, s)
  | t :: rest => (true, ⟨rest, some t⟩)

/-- Modelled from the spec: the state after n further Execute calls. -/
def execIter (s : ExecState) : Nat → ExecState
  | 0 => s
  | n + 1 => execIter (execute s).2 n

/-- Modelled from the spec: GetOutput returns and releases the buffered
tile. -/
def getOutput (s : ExecState) : Option LogicalTile × ExecState :=
  (s.buffered, ⟨s.pending, none⟩)

/-- Modelled from the spec: the initial state of a leaf sequential scan
executor after Init. -/
def initLeaf (node : SeqScanNode) : ExecState :=
  ⟨seqScanLeaf node, none⟩

/-- Modelled from the spec: a schema is an immutable ordered sequence of
column descriptors; each descriptor is abstracted to an opaque code. -/
structure Schema where
  columns : List Nat
deriving DecidableEq, Inhabited

/-- Embedding of std::unordered_map of id_t to id_t (the type of
MaterializationNode::old_to_new_cols_, planner/materialization_node.h line
46) as an association list from old column id to new column id; an
unordered_map holds at most one entry per key, captured by `mapWF`. -/
abbrev MatMap : Type := List (Nat × Nat)

/-- The unordered_map representation invariant: keys (old column ids) are
pairwise distinct. -/
abbrev mapWF (m : MatMap) : Prop := (List.map Prod.fst m).Nodup

/-- The new column ids an old column id is mapped to. -/
def newIdsOf (m : MatMap) (o : Nat) : List Nat :=
  List.map Prod.snd (List.filter (fun e => e.1 == o) m)

/-- The source old column ids of a new column id. -/
def sourcesOf (m : MatMap) (n : Nat) : List Nat :=
  List.map Prod.fst (List.filter (fun e => e.2 == n) m)

/-- Map lookup: the new column id an old column id maps to, if any. -/
def lookupNew (m : MatMap) (o : Nat) : Option Nat :=
  Option.map Prod.snd (List.find? (fun e => e.1 == o) m)

/-- Embedding of planner/materialization_node.h: a MaterializationNode holds
the old-to-new column mapping, the output column names, and the owned output
schema; the constructor stores the three fields and the accessors
old_to_new_cols(), column_names() and schema() return them. -/
structure MaterializationNode where
  old_to_new_cols : MatMap
  column_names : List String
  schema : Schema

/-- The source old column id for one new column id, if any. -/
def sourceFor (m : MatMap) (nc : Nat) : Option Nat :=
  Option.map Prod.fst (List.find? (fun e => e.2 == nc) m)

/-- Modelled from the spec: the materialization executor's output tile for
one input tile — freshly owned storage with the node's output schema, one
output row per input logical row, each mapped old column copied into the new
column it maps to. -/
def matTile (node : MaterializationNode) (t : LogicalTile) : LogicalTile :=
  let width := node.schema.columns.length
  let newRows := (List.range t.rows.length).map (fun j =>
    Row.mk true true ((List.range width).map (fun nc =>
      match sourceFor node.old_to_new_cols nc with
      | some oc => t.getValue j oc
      | none => 0)))
  ⟨List.range width, List.range t.rows.length, ⟨width, newRows⟩⟩

/-- Modelled from the spec: the output stream of a materialization executor
over its child's tile stream. -/
def matOutputs (node : MaterializationNode) (ts : List LogicalTile) : List LogicalTile :=
  ts.map (matTile node)

/-
Concrete fixtures from the sequential-scan test file (the table populated by
ExecutorTestsUtil::PopulateTiles and the predicate of CreatePredicate), used
for the concrete-scenario claim and for witnesses.
-/

/-- From the test file: PopulatedValue computes 10 * tuple_id + column_id
(the test reconstructs tuple ids by dividing column 0 by 10). -/
def populatedValue (tupleId colId : Nat) : Nat := 10 * tupleId + colId

/-- A populated row of the test table: occupied, visible, four columns. -/
def testRow (tupleId : Nat) : Row :=
  ⟨true, true,
   [populatedValue tupleId 0, populatedValue tupleId 1,
    populatedValue tupleId 2, populatedValue tupleId 3]⟩

/-- A test Tile Group of 50 populated rows over the 4-column schema (its
vertical partitioning — 2+2 or 1+3 — does not affect logical addressing). -/
def testTileGroup : TileGroup := ⟨4, (List.range 50).map testRow⟩

/-- The spec's concrete-scenario table: two Tile Groups of 50 rows each. -/
def testTable : DataTable := ⟨[testTileGroup, testTileGroup]⟩

/-- The predicate of CreatePredicate on tuple ids 0, 3, 5, 7: a left-nested
OR chain rooted at FALSE, comparing column 0 for the even-position ids and
column 3 for the odd-position ids. -/
def testPred (vals : List Nat) : Bool :=
  (((false
    || (vals.getD 0 0 == populatedValue 0 0))
    || (vals.getD 3 0 == populatedValue 3 3))
    || (vals.getD 0 0 == populatedValue 5 0))
    || (vals.getD 3 0 == populatedValue 7 3)

/-- The scan plan node of the concrete scenario: the test table, the test
predicate, projection to columns 0, 1, 3. -/
def testNode : SeqScanNode := ⟨some testTable, some testPred, [0, 1, 3]⟩

/-
Helper lemmas.
-/

/-- A filterMap whose hits agree with a map is a sublist of that map. -/
theorem filterMap_sublist_map {α β : Type} (f : α → Option β) (g : α → β) (l : List α)
    (h : ∀ a b, f a = some b → b = g a) : (l.filterMap f).Sublist (l.map g) := by
  induction l with
  | nil => simp
  | cons a l ih =>
    simp only [List.filterMap_cons, List.map_cons]
    cases hfa : f a with
    | none => exact ih.cons _
    | some b =>
      rw [h a b hfa]
      exact ih.cons₂ _

/-- A filterMap that hits on every element of the list is the map. -/
theorem filterMap_eq_map_of_forall {α β : Type} (f : α → Option β) (g : α → β)
    (l : List α) (h : ∀ a ∈ l, f a = some (g a)) : l.filterMap f = l.map g := by
  induction l with
  | nil => simp
  | cons a l ih =>
    simp only [List.filterMap_cons, List.map_cons]
    rw [h a (List.mem_cons_self a l), ih (fun x hx => h x (List.mem_cons_of_mem a hx))]

/-- A list with isEmpty false has positive length. -/
theorem length_pos_of_isEmpty_eq_false {α : Type} (l : List α)
    (h : l.isEmpty = false) : 0 < l.length := by
  cases l with
  | nil => simp at h
  | cons a l => exact Nat.succ_pos _

/-- In a well-formed map, one old id is mapped to at most one new id. -/
theorem mapWF_unique_newId (m : MatMap) (hm : mapWF m) (o n1 n2 : Nat)
    (h1 : (o, n1) ∈ m) (h2 : (o, n2) ∈ m) : n1 = n2 := by
  induction m with
  | nil => cases h1
  | cons e m ih =>
    obtain ⟨hk, hm2⟩ := List.nodup_cons.mp hm
    rcases List.mem_cons.mp h1 with h1e | h1m
    · rcases List.mem_cons.mp h2 with h2e | h2m
      · simpa using congrArg Prod.snd (h1e.trans h2e.symm)
      · exfalso
        apply hk
        rw [← h1e]
        exact List.mem_map.mpr ⟨(o, n2), h2m, rfl⟩
    · rcases List.mem_cons.mp h2 with h2e | h2m
      · exfalso
        apply hk
        rw [← h2e]
        exact List.mem_map.mpr ⟨(o, n1), h1m, rfl⟩
      · exact ih hm2 h1m h2m

/-- In a well-formed map, the list of new ids of one old id has at most one
entry. -/
theorem mapWF_newIds_le_one (m : MatMap) (hm : mapWF m) (o : Nat) :
    (newIdsOf m o).length ≤ 1 := by
  induction m with
  | nil => simp [newIdsOf]
  | cons e m ih =>
    obtain ⟨hk, hm2⟩ := List.nodup_cons.mp hm
    cases heq : (e.1 == o) with
    | false => simpa [newIdsOf, List.filter_cons, heq] using ih hm2
    | true =>
      have ho : e.1 = o := beq_iff_eq.mp heq
      have hfil : List.filter (fun x => x.1 == o) m = [] := by
        rw [List.filter_eq_nil_iff]
        intro x hx hb
        apply hk
        rw [ho, ← beq_iff_eq.mp hb]
        exact List.mem_map_of_mem Prod.fst hx
      simp [newIdsOf, List.filter_cons, heq, hfil]

/-- Characterization of the tile a leaf scan produces for one group. -/
theorem leafTileFor_eq_some (node : SeqScanNode) (g : TileGroup) (t : LogicalTile) :
    leafTileFor node g = some t ↔
      (matchingSlots node g).isEmpty = false ∧
        t = ⟨node.column_ids, matchingSlots node g, g⟩ := by
  cases he : (matchingSlots node g).isEmpty with
  | true => simp [leafTileFor, he]
  | false => simp [leafTileFor, he, eq_comm]

/-- Membership in the leaf scan output stream. -/
theorem mem_seqScanLeaf (node : SeqScanNode) (tb : DataTable) (t : LogicalTile)
    (hT : node.table = some tb) :
    t ∈ seqScanLeaf node ↔ ∃ g ∈ tb.groups, leafTileFor node g = some t := by
  simp only [seqScanLeaf, hT, List.mem_filterMap]

/-- An exhausting step of the non-leaf scan means no tile of the child stream
survives filtering. -/
theorem nonLeafStep_none (p : List Nat → Bool) (ts r : List LogicalTile)
    (h : nonLeafExecuteStep p ts = (none, r)) : nonLeafScan p ts = [] := by
  induction ts with
  | nil => rfl
  | cons t rest ih =>
    simp only [nonLeafExecuteStep] at h
    cases he : ((filterTile p t).rows).isEmpty with
    | true =>
      rw [he, if_pos rfl] at h
      simp only [nonLeafScan, List.filterMap_cons, he, if_pos rfl]
      exact ih h
    | false =>
      rw [he] at h
      simp at h

/-- A producing step of the non-leaf scan peels exactly the first surviving
tile off the stream. -/
theorem nonLeafStep_some (p : List Nat → Bool) (ts rest : List LogicalTile)
    (f : LogicalTile) (h : nonLeafExecuteStep p ts = (some f, rest)) :
    nonLeafScan p ts = f :: nonLeafScan p rest ∧ rest.length < ts.length := by
  induction ts generalizing rest f with
  | nil => cases h
  | cons t ts0 ih =>
    simp only [nonLeafExecuteStep] at h
    cases he : ((filterTile p t).rows).isEmpty with
    | true =>
      rw [he, if_pos rfl] at h
      obtain ⟨h1, h2⟩ := ih rest f h
      refine ⟨?_, Nat.lt_succ_of_lt h2⟩
      simp only [nonLeafScan, List.filterMap_cons, he, if_pos rfl]
      exact h1
    | false =>
      rw [he] at h
      simp only [Bool.false_eq_true, if_false, Prod.mk.injEq, Option.some.injEq] at h
      obtain ⟨h1, h2⟩ := h
      subst h1; subst h2
      refine ⟨?_, Nat.lt_succ_self _⟩
      simp only [nonLeafScan, List.filterMap_cons, he, Bool.false_eq_true, if_false]

/-- Driving the non-leaf executor to exhaustion produces the declarative
output stream. -/
theorem nonLeafDrive_eq (p : List Nat → Bool) (fuel : Nat) (ts : List LogicalTile)
    (hf : ts.length ≤ fuel) : nonLeafDrive p fuel ts = nonLeafScan p ts := by
  induction fuel generalizing ts with
  | zero =>
    have : ts = [] := List.eq_nil_of_length_eq_zero (Nat.le_zero.mp hf)
    subst this
    rfl
  | succ fuel ih =>
    rcases hstep : nonLeafExecuteStep p ts with ⟨fst, rest⟩
    cases fst with
    | none =>
      simp only [nonLeafDrive, hstep]
      exact (nonLeafStep_none p ts rest hstep).symm
    | some f =>
      obtain ⟨h1, h2⟩ := nonLeafStep_some p ts rest f hstep
      simp only [nonLeafDrive, hstep, h1]
      exact congrArg (f :: ·) (ih rest (Nat.le_of_lt_succ (Nat.lt_of_lt_of_le h2 hf)))

/-
Claim theorems.
-/

/-- C1: for every row slot r of every Tile Group scanned by a leaf Sequential
Scan executor, r appears in the scan's output (across all produced Logical
Tiles) iff r is occupied, transaction-visible, and the predicate evaluates to
true on r (or no predicate is configured). -/
theorem seq_scan_predicate_soundness (node : SeqScanNode) (tb : DataTable)
    (g : TileGroup) (r : Nat) (hT : node.table = some tb) (hg : g ∈ tb.groups) :
    (∃ t ∈ seqScanLeaf node, t.source = g ∧ r ∈ t.rows) ↔
      (r < g.rows.length ∧ rowMatches node g r = true) := by
  constructor
  · rintro ⟨t, ht, hsrc, hr⟩
    obtain ⟨g2, hg2, hfg2⟩ := (mem_seqScanLeaf node tb t hT).mp ht
    obtain ⟨-, rfl⟩ := (leafTileFor_eq_some node g2 t).mp hfg2
    have hgg : g2 = g := hsrc
    subst hgg
    have hr2 := List.mem_filter.mp hr
    exact ⟨List.mem_range.mp hr2.1, hr2.2⟩
  · rintro ⟨hlt, hm⟩
    have hr : r ∈ matchingSlots node g :=
      List.mem_filter.mpr ⟨List.mem_range.mpr hlt, hm⟩
    have hne : (matchingSlots node g).isEmpty = false := by
      cases hms : matchingSlots node g with
      | nil => rw [hms] at hr; cases hr
      | cons a l => rfl
    refine ⟨⟨node.column_ids, matchingSlots node g, g⟩, ?_, rfl, hr⟩
    exact (mem_seqScanLeaf node tb _ hT).mpr
      ⟨g, hg, (leafTileFor_eq_some node g _).mpr ⟨hne, rfl⟩⟩

/-- C1 witness: the iff instantiated at the concrete test scenario, group 0,
row slot 3. -/
theorem seq_scan_predicate_soundness_witness :
    (∃ t ∈ seqScanLeaf testNode, t.source = testTileGroup ∧ 3 ∈ t.rows) ↔
      (3 < testTileGroup.rows.length ∧ rowMatches testNode testTileGroup 3 = true) :=
  seq_scan_predicate_soundness testNode testTable testTileGroup 3 rfl
    (List.mem_cons_self _ _)

/-- C2: every output tile of a leaf scan configured with column ids [c0..ck]
has exactly k+1 logical columns, and the value at logical column i of any
output row is the value of physical column c_i of the underlying physical
row; duplicates and reordering of column ids are allowed. -/
theorem seq_scan_projection (node : SeqScanNode) (tb : DataTable) (t : LogicalTile)
    (hT : node.table = some tb) (ht : t ∈ seqScanLeaf node) :
    t.cols = node.column_ids ∧
    t.numCols = node.column_ids.length ∧
    ∀ j, j < t.numTuples → ∀ i, i < node.column_ids.length →
      t.getValue j i =
        ((t.source.rows.getD (t.rows.getD j 0) default).vals).getD
          (node.column_ids.getD i 0) 0 := by
  obtain ⟨g, hg, hfg⟩ := (mem_seqScanLeaf node tb t hT).mp ht
  obtain ⟨-, rfl⟩ := (leafTileFor_eq_some node g t).mp hfg
  exact ⟨rfl, rfl, fun j _ i _ => rfl⟩

/-- C2 witness: the projection facts at the first tile of the concrete
scenario. -/
theorem seq_scan_projection_witness :
    (⟨[0, 1, 3], [0, 3, 5, 7], testTileGroup⟩ : LogicalTile).cols = testNode.column_ids :=
  (seq_scan_projection testNode testTable ⟨[0, 1, 3], [0, 3, 5, 7], testTileGroup⟩
    rfl (by decide)).1

/-- C3: a leaf scan produces at most one tile per Tile Group (the output is a
sublist of the per-group tile list, so tiles come in ascending group order
and never mix rows of two groups — each tile has a single source group and
only row slots of it); when every group yields a matching row, the output is
exactly one tile per group and the count equals the group count. -/
theorem seq_scan_tile_per_group (node : SeqScanNode) (tb : DataTable)
    (hT : node.table = some tb) :
    (seqScanLeaf node).Sublist
      (tb.groups.map (fun g => LogicalTile.mk node.column_ids (matchingSlots node g) g)) ∧
    (∀ t ∈ seqScanLeaf node, ∃ g ∈ tb.groups,
      t.source = g ∧ ∀ r ∈ t.rows, r < g.rows.length) ∧
    ((∀ g ∈ tb.groups, matchingSlots node g ≠ []) →
      seqScanLeaf node =
        tb.groups.map (fun g => LogicalTile.mk node.column_ids (matchingSlots node g) g) ∧
      (seqScanLeaf node).length = tb.groups.length) := by
  refine ⟨?_, ?_, ?_⟩
  · rw [seqScanLeaf, hT]
    refine filterMap_sublist_map _ _ _ (fun g t hgt => ?_)
    exact ((leafTileFor_eq_some node g t).mp hgt).2
  · intro t ht
    obtain ⟨g, hg, hfg⟩ := (mem_seqScanLeaf node tb t hT).mp ht
    obtain ⟨-, rfl⟩ := (leafTileFor_eq_some node g t).mp hfg
    refine ⟨g, hg, rfl, fun r hr => ?_⟩
    exact List.mem_range.mp (List.mem_filter.mp hr).1
  · intro hall
    have heq : seqScanLeaf node =
        tb.groups.map (fun g => LogicalTile.mk node.column_ids (matchingSlots node g) g) := by
      rw [seqScanLeaf, hT]
      refine filterMap_eq_map_of_forall _ _ _ (fun g hg => ?_)
      refine (leafTileFor_eq_some node g _).mpr ⟨?_, rfl⟩
      cases hms : matchingSlots node g with
      | nil => exact absurd hms (hall g hg)
      | cons a l => rfl
    exact ⟨heq, by rw [heq, List.length_map]⟩

/-- C3 witness: the sublist fact at the concrete test scenario. -/
theorem seq_scan_tile_per_group_witness :
    (seqScanLeaf testNode).Sublist
      (testTable.groups.map
        (fun g => LogicalTile.mk testNode.column_ids (matchingSlots testNode g) g)) :=
  (seq_scan_tile_per_group testNode testTable rfl).1

/-- C4: the concrete scenario — a table of two Tile Groups of 50 rows each,
the predicate matching tuple ids 0, 3, 5, 7 in each group, projection to
columns 0, 1 and 3 — produces exactly 2 output tiles, each with 3 columns and
4 rows, whose reconstructed original tuple ids are 0, 3, 5 and 7. -/
theorem seq_scan_concrete_scenario :
    (seqScanLeaf testNode).length = 2 ∧
    (seqScanLeaf testNode).map
        (fun t => (t.numCols, t.numTuples,
          (tileIterate t).map (fun j => t.getValue j 0 / 10)))
      = [(3, 4, [0, 3, 5, 7]), (3, 4, [0, 3, 5, 7])] := by
  constructor
  · decide
  · decide

/-- C10: iterating over a scan-produced Logical Tile yields each live logical
row index exactly once — the iteration sequence has no duplicates, its length
equals NumTuples(), and it contains exactly the live logical row indices. -/
theorem tile_iteration_exactly_once (t : LogicalTile) :
    (tileIterate t).Nodup ∧
    (tileIterate t).length = t.numTuples ∧
    ∀ j : Nat, j ∈ tileIterate t ↔ j < t.numTuples :=
  ⟨List.nodup_range _, List.length_range _, fun _ => List.mem_range⟩

/-- C5 counterexample: with old_to_new_cols an unordered_map keyed by the old
column id, a well-formed mapping can send two distinct old ids to the same
new id, so it is false that every new id has exactly one source old id. -/
theorem mat_map_unique_source_counterexample :
    ¬ (∀ m : MatMap, mapWF m →
        ∀ n ∈ List.map Prod.snd m, (sourcesOf m n).length = 1) := by
  intro h
  have h5 := h [(0, 5), (1, 5)] (by decide) 5 (by decide)
  exact absurd h5 (by decide)

/-- C5 (amended): the old-to-new column mapping sends each old id to at most
one new id (no fan-out is possible), and it need not be contiguous or
bijective — a new id may have more than one source old id. -/
theorem mat_map_shape (m : MatMap) (hm : mapWF m) :
    (∀ o n1 n2, (o, n1) ∈ m → (o, n2) ∈ m → n1 = n2) ∧
    (∀ o, (newIdsOf m o).length ≤ 1) ∧
    (∃ mex : MatMap, mapWF mex ∧ lookupNew mex 0 = none ∧ sourcesOf mex 9 = [2, 4]) :=
  ⟨fun o n1 n2 h1 h2 => mapWF_unique_newId m hm o n1 n2 h1 h2,
   fun o => mapWF_newIds_le_one m hm o,
   ⟨[(2, 9), (4, 9)], by decide, by decide, by decide⟩⟩

/-- C5 witness: the amended claim instantiated at a concrete well-formed
mapping. -/
theorem mat_map_shape_witness :
    ∃ mex : MatMap, mapWF mex ∧ lookupNew mex 0 = none ∧ sourcesOf mex 9 = [2, 4] :=
  (mat_map_shape [(3, 4)] (by decide)).2.2

/-- C6: a scan or materialization executor never yields an empty tile — every
tile of a leaf scan's output stream, of a non-leaf scan's output stream, and
of a materialization executor's output stream (its child obeying the law) has
at least one row, and whenever Execute returns true the buffered tile of an
executor whose pending stream obeys the law has at least one row. -/
theorem no_empty_tile_law :
    (∀ node : SeqScanNode, ∀ t ∈ seqScanLeaf node, 0 < t.numTuples) ∧
    (∀ (p : List Nat → Bool) (ts : List LogicalTile),
      ∀ t ∈ nonLeafScan p ts, 0 < t.numTuples) ∧
    (∀ (node : MaterializationNode) (ts : List LogicalTile),
      (∀ s ∈ ts, 0 < s.numTuples) → ∀ u ∈ matOutputs node ts, 0 < u.numTuples) ∧
    (∀ s : ExecState, (∀ t ∈ s.pending, 0 < t.numTuples) →
      ∀ (b : Bool) (s2 : ExecState), execute s = (b, s2) → b = true →
        ∃ t, s2.buffered = some t ∧ 0 < t.numTuples) := by
  refine ⟨?_, ?_, ?_, ?_⟩
  · intro node t ht
    cases hT : node.table with
    | none => simp only [seqScanLeaf, hT] at ht; cases ht
    | some tb =>
      obtain ⟨g, hg, hfg⟩ := (mem_seqScanLeaf node tb t hT).mp ht
      obtain ⟨hne, rfl⟩ := (leafTileFor_eq_some node g t).mp hfg
      exact length_pos_of_isEmpty_eq_false _ hne
  · intro p ts t ht
    obtain ⟨s, hs, hsome⟩ := List.mem_filterMap.mp ht
    cases he : ((filterTile p s).rows).isEmpty with
    | true => rw [he, if_pos rfl] at hsome; cases hsome
    | false =>
      rw [he] at hsome
      simp only [Bool.false_eq_true, if_false, Option.some.injEq] at hsome
      subst hsome
      exact length_pos_of_isEmpty_eq_false _ he
  · intro node ts h u hu
    obtain ⟨s, hs, rfl⟩ := List.mem_map.mp hu
    simpa [matTile, LogicalTile.numTuples] using h s hs
  · rintro ⟨pending, buffered⟩ h b s2 hex hb
    subst hb
    cases pending with
    | nil =>
      simp only [execute] at hex
      exact absurd (congrArg Prod.fst hex) (by simp)
    | cons t0 rest =>
      simp only [execute, Prod.mk.injEq] at hex
      obtain ⟨-, h2⟩ := hex
      subst h2
      exact ⟨t0, rfl, h t0 (List.mem_cons_self _ _)⟩

/-- C6 witness: the first tile of the concrete leaf scan is nonempty. -/
theorem no_empty_tile_law_witness :
    0 < (⟨[0, 1, 3], [0, 3, 5, 7], testTileGroup⟩ : LogicalTile).numTuples :=
  no_empty_tile_law.1 testNode ⟨[0, 1, 3], [0, 3, 5, 7], testTileGroup⟩ (by decide)

/-- C7: once Execute has returned false, the state is unchanged and every
subsequent Execute call leaves the state unchanged and returns false —
exhaustion is terminal and free of side effects. -/
theorem execute_exhaustion_terminal (s s2 : ExecState)
    (h : execute s = (false, s2)) :
    s2 = s ∧ ∀ n : Nat, execIter s n = s ∧ (execute (execIter s n)).1 = false := by
  obtain ⟨pending, buffered⟩ := s
  cases pending with
  | cons t rest => simp [execute] at h
  | nil =>
    simp only [execute] at h
    obtain ⟨-, h2⟩ := Prod.mk.injEq .. |>.mp h
    subst h2
    refine ⟨rfl, ?_⟩
    intro n
    induction n with
    | zero => exact ⟨rfl, rfl⟩
    | succ n ih =>
      obtain ⟨ih1, ih2⟩ := ih
      constructor
      · show execIter (execute ⟨[], buffered⟩).2 n = _
        exact ih1
      · show (execute (execIter (execute ⟨[], buffered⟩).2 n)).1 = false
        exact ih2

/-- C7 witness: two further Execute calls after exhaustion still return
false. -/
theorem execute_exhaustion_terminal_witness :
    (execute (execIter ⟨[], none⟩ 2)).1 = false :=
  ((execute_exhaustion_terminal ⟨[], none⟩ ⟨[], none⟩ rfl).2 2).2

/-- C8: a non-leaf Sequential Scan pulls one tile from its child per Execute
call (driving it to exhaustion produces exactly the declarative filtered
stream and reports false exactly when the child is exhausted), every output
tile is an input tile with its rows filtered by the predicate and its column
mapping — hence its column count — unchanged, and the configured column ids
are ignored. -/
theorem seq_scan_non_leaf_mode (p : List Nat → Bool) (ts : List LogicalTile)
    (fuel : Nat) (node : SeqScanNode) (hf : ts.length ≤ fuel) :
    nonLeafDrive p fuel ts = nonLeafScan p ts ∧
    (∀ t ∈ nonLeafScan p ts, ∃ s ∈ ts,
      t.cols = s.cols ∧ t.numCols = s.numCols ∧ t.source = s.source ∧
      t.rows = s.rows.filter (fun r => p (slotView s.source s.cols r))) ∧
    (∀ cids : List Nat,
      seqScanNonLeaf ⟨node.table, node.predicate, cids⟩ ts = seqScanNonLeaf node ts) := by
  refine ⟨nonLeafDrive_eq p fuel ts hf, ?_, fun _ => rfl⟩
  intro t ht
  obtain ⟨s, hs, hsome⟩ := List.mem_filterMap.mp ht
  cases he : ((filterTile p s).rows).isEmpty with
  | true => rw [he, if_pos rfl] at hsome; cases hsome
  | false =>
    rw [he] at hsome
    simp only [Bool.false_eq_true, if_false, Option.some.injEq] at hsome
    subst hsome
    exact ⟨s, hs, rfl, rfl, rfl, rfl⟩

/-- C8 witness: the drive/stream equivalence at a concrete wrapped tile. -/
theorem seq_scan_non_leaf_mode_witness :
    nonLeafDrive testPred 1 [wrapTileGroup testTileGroup] =
      nonLeafScan testPred [wrapTileGroup testTileGroup] :=
  (seq_scan_non_leaf_mode testPred [wrapTileGroup testTileGroup] 1 testNode
    (by simp)).1

/-- C9: a MaterializationNode is a pure data holder — the accessors
old_to_new_cols, column_names and schema return exactly the values supplied
at construction. -/
theorem materialization_node_pure_holder (m : MatMap) (c : List String) (s : Schema) :
    (MaterializationNode.mk m c s).old_to_new_cols = m ∧
    (MaterializationNode.mk m c s).column_names = c ∧
    (MaterializationNode.mk m c s).schema = s :=
  ⟨rfl, rfl, rfl⟩

end Peloton
